import Mathlib

/-!
Shallow embedding of the Tremolo-1.0 audio engine
(`src/OnePoleSmoother.h`, `src/FeatureExtractor.h`, `src/Tremolo.cpp`,
`src/main.cpp`).  C++ `float`/`double` values are modelled as real
numbers (exact arithmetic; float rounding is not modelled), machine
integers as `ℕ`/`ℤ`, `std::vector`/raw interleaved buffers as `List`,
and a possibly-null pointer as `Option`.  The feature extractor, whose
claims are purely structural/rational, is modelled over `ℚ` so that it
stays fully computable.
-/

/-- The denormal-guard offset `1e-20f` used by both the smoother and the
engine's per-sample mix. -/
noncomputable def tiny : ℝ := 1e-20

/-- `clamp01` from `Tremolo.cpp`: `std::max(0.f, std::min(1.f, x))`. -/
noncomputable def clamp01 (x : ℝ) : ℝ := max 0 (min 1 x)

/-- `clamp11` from `Tremolo.cpp`: `std::max(-1.f, std::min(1.f, x))`. -/
noncomputable def clamp11 (x : ℝ) : ℝ := max (-1) (min 1 x)

/-- C truncation toward zero, as used by `std::fmod`. -/
noncomputable def ctrunc (x : ℝ) : ℤ := if 0 ≤ x then ⌊x⌋ else ⌈x⌉

/-- C `std::fmod x y = x - y * trunc (x / y)` (sign follows the dividend). -/
noncomputable def cFmod (x y : ℝ) : ℝ := x - y * ctrunc (x / y)

/-- State of `OnePoleSmoother` (`src/OnePoleSmoother.h`), with the
member defaults of the C++ struct. -/
structure OnePoleSmoother where
  sampleRate : ℝ := 48000
  tau : ℝ := 0.01
  a : ℝ := 0
  z : ℝ := 0

namespace OnePoleSmoother

/-- `updateCoeff`: `a = exp(-1.0 / (tau * sampleRate))`. -/
noncomputable def updateCoeff (s : OnePoleSmoother) : OnePoleSmoother :=
  { s with a := Real.exp (-1 / (s.tau * s.sampleRate)) }

/-- `setSampleRate(fs)`: substitute 48000 for a non-positive rate, then
recompute the coefficient. -/
noncomputable def setSampleRate (s : OnePoleSmoother) (fs : ℝ) : OnePoleSmoother :=
  updateCoeff { s with sampleRate := if 0 < fs then fs else 48000 }

/-- `setTimeConstant(tauSeconds)`: floor the time constant at `1e-6`,
then recompute the coefficient. -/
noncomputable def setTimeConstant (s : OnePoleSmoother) (tauSeconds : ℝ) : OnePoleSmoother :=
  updateCoeff { s with tau := if 1e-6 < tauSeconds then tauSeconds else 1e-6 }

/-- `reset(value)`: force the internal state. -/
def reset (s : OnePoleSmoother) (value : ℝ) : OnePoleSmoother :=
  { s with z := value }

/-- `process(target)`: `z = a * (z + tiny) + (1 - a) * target`, returning
the new `z` together with the updated state. -/
noncomputable def process (s : OnePoleSmoother) (target : ℝ) : ℝ × OnePoleSmoother :=
  let z' := s.a * (s.z + tiny) + (1 - s.a) * target
  (z', { s with z := z' })

end OnePoleSmoother

/-- `FrameSize = 1024` from `src/FeatureExtractor.h`. -/
def FrameSize : ℕ := 1024

/-- State of `FeatureExtractor` (`src/FeatureExtractor.h`): the sliding
window `buf` of mono-folded samples (modelled over `ℚ`). -/
structure FeatureExtractor where
  buf : List ℚ := []

namespace FeatureExtractor

/-- `pushSample(L, R)`: append `0.5 * (L + R)`; if the window now exceeds
`FrameSize`, erase the oldest (front) element. -/
def pushSample (f : FeatureExtractor) (L R : ℚ) : FeatureExtractor :=
  let m := (1 / 2) * (L + R)
  let b := f.buf ++ [m]
  { buf := if FrameSize < b.length then b.drop 1 else b }

/-- `ready()`: true iff the window length equals `FrameSize`. -/
def ready (f : FeatureExtractor) : Bool := f.buf.length == FrameSize

/-- `reset()`: empty the window. -/
def reset (_f : FeatureExtractor) : FeatureExtractor := { buf := [] }

/-- The zero-crossing count of the loop in `zcr()`: one per adjacent pair
`(a, b)` with `a ≥ 0 ∧ b < 0` or `a < 0 ∧ b ≥ 0`. -/
def crossings : List ℚ → ℕ
  | a :: b :: rest =>
      (if (0 ≤ a ∧ b < 0) ∨ (a < 0 ∧ 0 ≤ b) then 1 else 0) + crossings (b :: rest)
  | _ => 0

/-- `zcr()`: 0 for fewer than two samples, else `crossings / (size - 1)`. -/
def zcr (f : FeatureExtractor) : ℚ :=
  if f.buf.length < 2 then 0
  else (crossings f.buf : ℚ) / ((f.buf.length - 1 : ℕ) : ℚ)

end FeatureExtractor

/-- `LFOShape` from `src/Tremolo.h`. -/
inductive LFOShape where
  | Sine
  | Triangle
  | Square
  | SquareSoft
deriving DecidableEq

/-- State of `Tremolo` (`src/Tremolo.h`), with the member defaults of the
C++ struct. -/
structure Tremolo where
  sr : ℝ := 48000
  rateHz : ℝ := 5
  depth : ℝ := 0.6
  wet : ℝ := 1
  phase : ℝ := 0
  phaseInc : ℝ := 0
  stereoPhaseR : ℝ := 0
  shape : LFOShape := LFOShape.Sine
  depthSm : OnePoleSmoother := {}
  rateSm : OnePoleSmoother := {}

namespace Tremolo

/-- `setSampleRate(fs)` from `Tremolo.cpp`: substitute 48000 for a
non-positive rate, reconfigure both smoothers (sample rate, 10 ms time
constant, reset to the current targets) and recompute `phaseInc`. -/
noncomputable def setSampleRate (t : Tremolo) (fs : ℝ) : Tremolo :=
  let sr := if 0 < fs then fs else 48000
  { t with
    sr := sr
    depthSm := ((t.depthSm.setSampleRate sr).setTimeConstant 0.01).reset t.depth
    rateSm := ((t.rateSm.setSampleRate sr).setTimeConstant 0.01).reset t.rateHz
    phaseInc := t.rateHz / sr }

/-- `setDepth(d)`: clamp to [0,1]. -/
noncomputable def setDepth (t : Tremolo) (d : ℝ) : Tremolo :=
  { t with depth := clamp01 d }

/-- `setRateHz(r)`: floor at `0.0001`. -/
noncomputable def setRateHz (t : Tremolo) (r : ℝ) : Tremolo :=
  { t with rateHz := max 0.0001 r }

/-- `setWet(w)`: clamp to [0,1]. -/
noncomputable def setWet (t : Tremolo) (w : ℝ) : Tremolo :=
  { t with wet := clamp01 w }

/-- `setStereoPhaseDeg(deg)`: clamp to [0,180] degrees, store as a
fractional cycle (`deg / 360`). -/
noncomputable def setStereoPhaseDeg (t : Tremolo) (deg : ℝ) : Tremolo :=
  { t with stereoPhaseR := max 0 (min 180 deg) / 360 }

/-- `setShape(s)`. -/
def setShape (t : Tremolo) (s : LFOShape) : Tremolo :=
  { t with shape := s }

/-- `lfoSine(ph) = 0.5 * (1 + sin(2π·ph))`. -/
noncomputable def lfoSine (ph : ℝ) : ℝ :=
  0.5 * (1 + Real.sin (2 * Real.pi * ph))

/-- `lfoTriangle(ph)`: `t = fmod(ph, 1)`, ramp `-1..1`, rescaled to `0..1`. -/
noncomputable def lfoTriangle (ph : ℝ) : ℝ :=
  let tv := cFmod ph 1
  let tri := if tv < 0.5 then tv * 4 - 1 else 3 - tv * 4
  0.5 * (tri + 1)

/-- `lfoSquare(ph)`: 1 when `sin(2π·ph) ≥ 0`, else 0. -/
noncomputable def lfoSquare (ph : ℝ) : ℝ :=
  if 0 ≤ Real.sin (2 * Real.pi * ph) then 1 else 0

/-- `lfoSquareSoft(ph) = 0.5 * (tanh(3 * sin(2π·ph)) + 1)`. -/
noncomputable def lfoSquareSoft (ph : ℝ) : ℝ :=
  0.5 * (Real.tanh (3 * Real.sin (2 * Real.pi * ph)) + 1)

/-- The `switch (shape_)` dispatch inside `process`. -/
noncomputable def lfoEval (s : LFOShape) (ph : ℝ) : ℝ :=
  match s with
  | LFOShape.Sine => lfoSine ph
  | LFOShape.Triangle => lfoTriangle ph
  | LFOShape.Square => lfoSquare ph
  | LFOShape.SquareSoft => lfoSquareSoft ph

/-- One iteration of the per-frame loop of `process`, without the buffer
writes: pull the smoothed rate and depth, recompute `phaseInc`, compute
the two channel gains from the pre-advance phase, then advance and wrap
the phase.  Returns the updated state and `(gainL, gainR)`. -/
noncomputable def processStep (t : Tremolo) : Tremolo × ℝ × ℝ :=
  let pr := t.rateSm.process t.rateHz
  let phaseInc' := max 1e-9 (pr.1 / t.sr)
  let pd := t.depthSm.process t.depth
  let phL := t.phase
  let phR := cFmod (t.phase + t.stereoPhaseR) 1
  let gainL := 1 - pd.1 * lfoEval t.shape phL
  let gainR := 1 - pd.1 * lfoEval t.shape phR
  let phase1 := t.phase + phaseInc'
  let phase2 := if 1 ≤ phase1 then phase1 - 1 else phase1
  ({ t with rateSm := pr.2, depthSm := pd.2, phaseInc := phaseInc', phase := phase2 },
   gainL, gainR)

/-- The per-channel output of `process`:
`clamp11((1 - wet) * (x + tiny) + wet * ((x + tiny) * gain))`. -/
noncomputable def chanOut (wet gain x : ℝ) : ℝ :=
  clamp11 ((1 - wet) * (x + tiny) + wet * ((x + tiny) * gain))

/-- The `channels == 1` branch of `process`: one buffer element per
frame, left gain only. -/
noncomputable def processMono : Tremolo → ℕ → List ℝ → Tremolo × List ℝ
  | t, 0, buf => (t, buf)
  | t, n + 1, buf =>
      let st := t.processStep
      match buf with
      | [] => processMono st.1 n []
      | x :: rest =>
          let y := chanOut t.wet st.2.1 x
          let r := processMono st.1 n rest
          (r.1, y :: r.2)

/-- The `channels ≥ 2` branch of `process`: the frame `i` reads and
writes buffer positions `i * 2` and `i * 2 + 1`. -/
noncomputable def processStereo : Tremolo → ℕ → List ℝ → Tremolo × List ℝ
  | t, 0, buf => (t, buf)
  | t, n + 1, buf =>
      let st := t.processStep
      match buf with
      | xL :: xR :: rest =>
          let yL := chanOut t.wet st.2.1 xL
          let yR := chanOut t.wet st.2.2 xR
          let r := processStereo st.1 n rest
          (r.1, yL :: yR :: r.2)
      | other =>
          let r := processStereo st.1 n []
          (r.1, other)

/-- `process(interleaved, frames, channels)`: a null buffer or a channel
count below 1 is a no-op; one channel dispatches to the mono loop,
anything else to the two-channel interleaved loop. -/
noncomputable def process (t : Tremolo) (interleaved : Option (List ℝ))
    (frames : ℕ) (channels : ℤ) : Tremolo × Option (List ℝ) :=
  match interleaved with
  | none => (t, none)
  | some buf =>
      if channels < 1 then (t, some buf)
      else if channels = 1 then
        let r := processMono t frames buf
        (r.1, some r.2)
      else
        let r := processStereo t frames buf
        (r.1, some r.2)

end Tremolo

/-- `divisionToHz`'s lookup table from `src/main.cpp`:
`{"1", 4}, {"1/2", 2}, {"1/4", 1}, {"1/8", 0.5}, {"1/16", 0.25}`. -/
def divisionBeats (div : String) : Option ℚ :=
  if div = "1" then some 4
  else if div = "1/2" then some 2
  else if div = "1/4" then some 1
  else if div = "1/8" then some (1 / 2)
  else if div = "1/16" then some (1 / 4)
  else none

/-- `divisionToHz(bpm, div)` from `src/main.cpp`: `(bpm / 60) /
beatsPerCycle` for a recognized division, `-1` otherwise. -/
noncomputable def divisionToHz (bpm : ℝ) (div : String) : ℝ :=
  match divisionBeats div with
  | none => -1
  | some beats => (bpm / 60) / (beats : ℝ)

/-- The rate-sync application in `main` (`src/main.cpp` lines 162-176):
`setRateHz` is called only when the computed rate is positive; otherwise
the engine is left untouched. -/
noncomputable def applyRateSync (t : Tremolo) (bpm : ℝ) (div : String) : Tremolo :=
  let hz := divisionToHz bpm div
  if 0 < hz then t.setRateHz hz else t

/-- An upper bound on the rate smoother's state that is preserved by the
per-sample update `z' = a*(z + tiny) + (1-a)*rateHz`: the target rate
plus the fixed point `a*tiny/(1-a)` of the denormal-guard bias. -/
noncomputable def rateBound (t : Tremolo) : ℝ :=
  t.rateHz + t.rateSm.a * tiny / (1 - t.rateSm.a)

/-- Sufficient condition for the phase accumulator to stay inside
`[0, 1)`: the sample rate is positive, the rate smoother's coefficient
lies in `(0, 1)`, its state is at most `rateBound`, and `rateBound` does
not exceed the sample rate (so the per-sample phase increment never
exceeds 1). -/
def RateOK (t : Tremolo) : Prop :=
  0 < t.sr ∧ 0 < t.rateSm.a ∧ t.rateSm.a < 1 ∧
    t.rateSm.z ≤ rateBound t ∧ rateBound t ≤ t.sr

/-- A concrete engine state satisfying `RateOK`: sample rate 1, target
rate 1/2, rate-smoother coefficient 1/2 and state 1/2, phase 0. -/
noncomputable def rateOKExample : Tremolo :=
  { sr := 1, rateHz := 1 / 2,
    rateSm := { sampleRate := 1, tau := 0.01, a := 1 / 2, z := 1 / 2 } }

/-- A stereo interleaved buffer whose left and right samples agree in
every frame: each frame value is duplicated. -/
def dup2 : List ℝ → List ℝ
  | [] => []
  | x :: r => x :: x :: dup2 r

namespace Tremolo

@[simp]
theorem processStep_wet (t : Tremolo) : t.processStep.1.wet = t.wet := rfl

@[simp]
theorem processStep_sr (t : Tremolo) : t.processStep.1.sr = t.sr := rfl

@[simp]
theorem processStep_rateHz (t : Tremolo) : t.processStep.1.rateHz = t.rateHz := rfl

@[simp]
theorem processStep_stereoPhaseR (t : Tremolo) :
    t.processStep.1.stereoPhaseR = t.stereoPhaseR := rfl

@[simp]
theorem processStep_shape (t : Tremolo) : t.processStep.1.shape = t.shape := rfl

@[simp]
theorem processStep_rateSm_a (t : Tremolo) : t.processStep.1.rateSm.a = t.rateSm.a := rfl

theorem processStep_rateSm_z (t : Tremolo) :
    t.processStep.1.rateSm.z = t.rateSm.a * (t.rateSm.z + tiny) + (1 - t.rateSm.a) * t.rateHz :=
  rfl

theorem processStep_phase (t : Tremolo) :
    t.processStep.1.phase =
      if 1 ≤ t.phase + max 1e-9 ((t.rateSm.process t.rateHz).1 / t.sr) then
        t.phase + max 1e-9 ((t.rateSm.process t.rateHz).1 / t.sr) - 1
      else t.phase + max 1e-9 ((t.rateSm.process t.rateHz).1 / t.sr) :=
  rfl

end Tremolo

/-- C2: `OnePoleSmoother::process(target)` updates the state to
`y' = a*(y + 1e-20) + (1-a)*target` and returns the new state value; the
coefficient equals `exp(-1/(tau*sampleRate))` after every
`setSampleRate` or `setTimeConstant` call (recomputed, never stale).
Finiteness is implicit in the real-number model. -/
theorem onePoleSmoother_process_spec (s : OnePoleSmoother) (target : ℝ) :
    (s.process target).2.z = s.a * (s.z + 1e-20) + (1 - s.a) * target ∧
    (s.process target).1 = (s.process target).2.z ∧
    (∀ fs : ℝ, (s.setSampleRate fs).a =
      Real.exp (-1 / ((s.setSampleRate fs).tau * (s.setSampleRate fs).sampleRate))) ∧
    (∀ tauSeconds : ℝ, (s.setTimeConstant tauSeconds).a =
      Real.exp (-1 / ((s.setTimeConstant tauSeconds).tau *
        (s.setTimeConstant tauSeconds).sampleRate))) :=
  ⟨rfl, rfl, fun _ => rfl, fun _ => rfl⟩

/-- C4: `process` with a null buffer (at any channel count), or with a
channel count below 1, returns without touching the engine state or the
buffer. -/
theorem process_null_or_bad_channels_noop (t : Tremolo) (frames : ℕ) (channels : ℤ)
    (buf : List ℝ) :
    t.process none frames channels = (t, none) ∧
    (channels < 1 → t.process (some buf) frames channels = (t, some buf)) := by
  refine ⟨rfl, fun h => ?_⟩
  simp [Tremolo.process, h]

/-- Witness for C4: a null buffer at the valid channel count 2, and a
non-null buffer at channel count 0. -/
theorem process_null_or_bad_channels_noop_witness :
    ({} : Tremolo).process none 3 2 = ({}, none) ∧
    ((0 : ℤ) < 1 ∧ ({} : Tremolo).process (some [1]) 3 0 = ({}, some [1])) :=
  ⟨(process_null_or_bad_channels_noop {} 3 2 [1]).1,
   ⟨by norm_num, (process_null_or_bad_channels_noop {} 3 0 [1]).2 (by norm_num)⟩⟩

/-- C5: starting from a window of at most `FrameSize` samples,
`pushSample` keeps the window at or below `FrameSize`; a full window
evicts the oldest sample first (FIFO); `ready()` is true exactly when
the window length equals `FrameSize`; `reset()` empties the window. -/
theorem featureExtractor_window_invariant (f : FeatureExtractor) (L R : ℚ)
    (h : f.buf.length ≤ FrameSize) :
    (f.pushSample L R).buf.length ≤ FrameSize ∧
    (f.ready = true ↔ f.buf.length = FrameSize) ∧
    (f.buf.length = FrameSize →
      (f.pushSample L R).buf = f.buf.drop 1 ++ [(1 / 2) * (L + R)]) ∧
    f.reset.buf = [] := by
  refine ⟨?_, ?_, ?_, rfl⟩
  · simp only [FeatureExtractor.pushSample, List.length_append, List.length_singleton]
    split
    · simp only [List.length_drop, List.length_append, List.length_singleton]
      omega
    · rename_i hns
      simp only [List.length_append, List.length_singleton] at hns ⊢
      omega
  · simp [FeatureExtractor.ready]
  · intro hfull
    obtain ⟨a, rest, hbuf⟩ : ∃ a rest, f.buf = a :: rest := by
      cases hb : f.buf with
      | nil => rw [hb] at hfull; simp [FrameSize] at hfull
      | cons a rest => exact ⟨a, rest, rfl⟩
    have hlen : rest.length + 1 = FrameSize := by
      rw [hbuf] at hfull; simpa using hfull
    have hlt : FrameSize < rest.length + 1 + 1 := by omega
    simp [FeatureExtractor.pushSample, hbuf, hlt]

/-- Witness for C5 at a full window of 1024 zeros. -/
theorem featureExtractor_window_invariant_witness :
    (⟨List.replicate FrameSize (0 : ℚ)⟩ : FeatureExtractor).buf.length ≤ FrameSize ∧
    (((⟨List.replicate FrameSize (0 : ℚ)⟩ : FeatureExtractor).pushSample 1 1).buf.length ≤
        FrameSize ∧
      ((⟨List.replicate FrameSize (0 : ℚ)⟩ : FeatureExtractor).ready = true ↔
        (⟨List.replicate FrameSize (0 : ℚ)⟩ : FeatureExtractor).buf.length = FrameSize) ∧
      ((⟨List.replicate FrameSize (0 : ℚ)⟩ : FeatureExtractor).buf.length = FrameSize →
        ((⟨List.replicate FrameSize (0 : ℚ)⟩ : FeatureExtractor).pushSample 1 1).buf =
          (⟨List.replicate FrameSize (0 : ℚ)⟩ : FeatureExtractor).buf.drop 1 ++
            [(1 / 2) * (1 + 1)]) ∧
      (⟨List.replicate FrameSize (0 : ℚ)⟩ : FeatureExtractor).reset.buf = []) :=
  ⟨by simp, featureExtractor_window_invariant _ 1 1 (by simp)⟩

/-- The crossing count of a window is at most the number of adjacent pairs. -/
theorem crossings_cons_le (l : List ℚ) :
    ∀ a, FeatureExtractor.crossings (a :: l) ≤ l.length := by
  induction l with
  | nil => intro a; simp [FeatureExtractor.crossings]
  | cons b r ih =>
      intro a
      simp only [FeatureExtractor.crossings, List.length_cons]
      have := ih b
      split <;> omega

theorem crossings_nonneg_cast (l : List ℚ) : (0 : ℚ) ≤ (FeatureExtractor.crossings l : ℚ) := by
  exact_mod_cast Nat.zero_le _

/-- C6: `zcr()` counts adjacent sign transitions (zero counting as
non-negative) divided by the pair count, is 0 on windows shorter than
two samples, and always lies in `[0, 1]`. -/
theorem zcr_spec (f : FeatureExtractor) :
    0 ≤ f.zcr ∧ f.zcr ≤ 1 ∧
    (f.buf.length < 2 → f.zcr = 0) ∧
    (2 ≤ f.buf.length →
      f.zcr = (FeatureExtractor.crossings f.buf : ℚ) / ((f.buf.length - 1 : ℕ) : ℚ)) := by
  by_cases hlen : f.buf.length < 2
  · refine ⟨?_, ?_, fun _ => ?_, fun h2 => absurd h2 (by omega)⟩ <;>
      simp [FeatureExtractor.zcr, hlen]
  · push_neg at hlen
    obtain ⟨a, rest, hbuf⟩ : ∃ a rest, f.buf = a :: rest := by
      cases hb : f.buf with
      | nil => rw [hb] at hlen; simp at hlen
      | cons a rest => exact ⟨a, rest, rfl⟩
    have hcr : FeatureExtractor.crossings f.buf ≤ f.buf.length - 1 := by
      rw [hbuf]
      simpa using crossings_cons_le rest a
    have hpos : (0 : ℚ) < ((f.buf.length - 1 : ℕ) : ℚ) := by
      have : 1 ≤ f.buf.length - 1 := by omega
      exact_mod_cast Nat.lt_of_lt_of_le Nat.zero_lt_one this
    have hzcr : f.zcr = (FeatureExtractor.crossings f.buf : ℚ) / ((f.buf.length - 1 : ℕ) : ℚ) := by
      simp [FeatureExtractor.zcr, Nat.not_lt.mpr hlen]
    refine ⟨?_, ?_, fun hc => absurd hc (by omega), fun _ => hzcr⟩
    · rw [hzcr]
      exact div_nonneg (crossings_nonneg_cast _) hpos.le
    · rw [hzcr, div_le_one hpos]
      exact_mod_cast hcr

/-- Witness for C6 on the two-sample window `[1, -1]` (one crossing). -/
theorem zcr_spec_witness :
    2 ≤ ({ buf := [1, -1] } : FeatureExtractor).buf.length ∧
    ({ buf := [1, -1] } : FeatureExtractor).zcr =
      (FeatureExtractor.crossings (({ buf := [1, -1] } : FeatureExtractor).buf) : ℚ) /
        ((({ buf := [1, -1] } : FeatureExtractor).buf.length - 1 : ℕ) : ℚ) :=
  ⟨by decide, (zcr_spec { buf := [1, -1] }).2.2.2 (by decide)⟩

/-- C9: the tempo-sync mapping sends the five recognized divisions to
`(BPM/60) / beatsPerCycle` with beats 4, 2, 1, 1/2, 1/4, and any other
division string leaves the engine (in particular its rate) unchanged. -/
theorem divisionToHz_spec :
    (∀ bpm : ℝ,
      divisionToHz bpm "1" = (bpm / 60) / 4 ∧
      divisionToHz bpm "1/2" = (bpm / 60) / 2 ∧
      divisionToHz bpm "1/4" = (bpm / 60) / 1 ∧
      divisionToHz bpm "1/8" = (bpm / 60) / (1 / 2) ∧
      divisionToHz bpm "1/16" = (bpm / 60) / (1 / 4)) ∧
    ∀ (t : Tremolo) (bpm : ℝ) (div : String),
      div ∉ (["1", "1/2", "1/4", "1/8", "1/16"] : List String) →
      divisionToHz bpm div = -1 ∧ applyRateSync t bpm div = t := by
  constructor
  · intro bpm
    refine ⟨?_, ?_, ?_, ?_, ?_⟩ <;> simp +decide [divisionToHz, divisionBeats]
  · intro t bpm div hmem
    simp only [List.mem_cons, List.mem_singleton, not_or] at hmem
    obtain ⟨h1, h2, h3, h4, h5, _⟩ := hmem
    have hb : divisionBeats div = none := by
      simp [divisionBeats, h1, h2, h3, h4, h5]
    have hz : divisionToHz bpm div = -1 := by
      simp [divisionToHz, hb]
    refine ⟨hz, ?_⟩
    simp [applyRateSync, hz]

/-- Witness for C9 at the unrecognized division string `"foo"`. -/
theorem divisionToHz_spec_witness :
    ("foo" ∉ (["1", "1/2", "1/4", "1/8", "1/16"] : List String)) ∧
    (divisionToHz 120 "foo" = -1 ∧ applyRateSync {} 120 "foo" = {}) :=
  ⟨by decide, divisionToHz_spec.2 {} 120 "foo" (by decide)⟩

theorem chanOut_wet_zero (g x : ℝ) : Tremolo.chanOut 0 g x = clamp11 (x + tiny) := by
  simp [Tremolo.chanOut]

theorem processMono_wet_zero (n : ℕ) :
    ∀ (t : Tremolo) (buf : List ℝ), t.wet = 0 → n ≤ buf.length →
    (Tremolo.processMono t n buf).2 =
      (buf.take n).map (fun x => clamp11 (x + tiny)) ++ buf.drop n := by
  induction n with
  | zero => intro t buf _ _; simp [Tremolo.processMono]
  | succ n ih =>
      intro t buf hw hlen
      cases buf with
      | nil => simp at hlen
      | cons x rest =>
          simp only [Tremolo.processMono, List.take_succ_cons, List.drop_succ_cons,
            List.map_cons, List.cons_append]
          rw [hw, chanOut_wet_zero,
            ih t.processStep.1 rest (by simp [hw]) (by simpa using hlen)]

theorem processStereo_wet_zero (n : ℕ) :
    ∀ (t : Tremolo) (buf : List ℝ), t.wet = 0 → 2 * n ≤ buf.length →
    (Tremolo.processStereo t n buf).2 =
      (buf.take (2 * n)).map (fun x => clamp11 (x + tiny)) ++ buf.drop (2 * n) := by
  induction n with
  | zero => intro t buf _ _; simp [Tremolo.processStereo]
  | succ n ih =>
      intro t buf hw hlen
      match buf with
      | [] => simp at hlen
      | [x] => simp at hlen; omega
      | xL :: xR :: rest =>
          have h2 : 2 * (n + 1) = 2 * n + 1 + 1 := by ring
          simp only [h2, List.take_succ_cons, List.drop_succ_cons,
            List.map_cons, List.cons_append, Tremolo.processStereo]
          rw [hw, chanOut_wet_zero, chanOut_wet_zero,
            ih t.processStep.1 rest (by simp [hw]) (by simp at hlen; omega)]

/-- C3: with the wet mix at 0, `process` writes back each processed
sample as the input plus the denormal-guard `tiny`, clamped into
`[-1, 1]`; the rest of the buffer is untouched. -/
theorem process_wet_zero_identity (t : Tremolo) (frames : ℕ) (buf : List ℝ) (channels : ℤ)
    (hw : t.wet = 0) (hch : 1 ≤ channels)
    (hlen : (if channels = 1 then frames else 2 * frames) ≤ buf.length) :
    (t.process (some buf) frames channels).2 =
      some ((buf.take (if channels = 1 then frames else 2 * frames)).map
          (fun x => clamp11 (x + tiny)) ++
        buf.drop (if channels = 1 then frames else 2 * frames)) := by
  have hnl : ¬ channels < 1 := not_lt.mpr hch
  by_cases h1 : channels = 1
  · rw [if_pos h1] at hlen
    simp only [Tremolo.process, if_neg hnl, if_pos h1, if_pos h1]
    rw [processMono_wet_zero frames t buf hw hlen]
  · rw [if_neg h1] at hlen
    simp only [Tremolo.process, if_neg hnl, if_neg h1]
    rw [processStereo_wet_zero frames t buf hw hlen]

/-- Witness for C3: stereo two-element buffer `[2, 5]`, wet set to 0 via
`setWet`; the out-of-range inputs are clamped after the tiny offset. -/
theorem process_wet_zero_identity_witness :
    (({} : Tremolo).setWet 0).wet = 0 ∧ (1 : ℤ) ≤ 2 ∧
    (if (2 : ℤ) = 1 then 1 else 2 * 1) ≤ ([2, 5] : List ℝ).length ∧
    ((({} : Tremolo).setWet 0).process (some [2, 5]) 1 2).2 =
      some ((([2, 5] : List ℝ).take (if (2 : ℤ) = 1 then 1 else 2 * 1)).map
          (fun x => clamp11 (x + tiny)) ++
        ([2, 5] : List ℝ).drop (if (2 : ℤ) = 1 then 1 else 2 * 1)) := by
  have hw : (({} : Tremolo).setWet 0).wet = 0 := by
    simp [Tremolo.setWet, clamp01]
  exact ⟨hw, by norm_num, by norm_num,
    process_wet_zero_identity _ 1 [2, 5] 2 hw (by norm_num) (by norm_num)⟩

/-- C7 counterexample: the Triangle generator, evaluated at the phase
`-3/4`, returns `-3/2`, which is outside `[0, 1]` (C `fmod` keeps the
sign of a negative dividend). -/
theorem lfoTriangle_out_of_range_cex :
    Tremolo.lfoEval LFOShape.Triangle (-(3 / 4)) < 0 := by
  have hceil : ⌈((-(3 / 4) : ℝ)) / 1⌉ = 0 := by
    rw [div_one, Int.ceil_eq_zero_iff]
    constructor <;> norm_num
  have htr : ctrunc ((-(3 / 4) : ℝ) / 1) = 0 := by
    rw [ctrunc, if_neg (by norm_num), hceil]
  have hfm : cFmod (-(3 / 4) : ℝ) 1 = -(3 / 4) := by
    rw [cFmod, htr]
    norm_num
  simp only [Tremolo.lfoEval, Tremolo.lfoTriangle, hfm]
  norm_num

theorem tanh_bounds (x : ℝ) : -1 < Real.tanh x ∧ Real.tanh x < 1 := by
  rw [Real.tanh_eq_sinh_div_cosh]
  have hc := Real.cosh_pos x
  constructor
  · rw [lt_div_iff₀ hc]
    have := Real.sinh_lt_cosh (-x)
    rw [Real.sinh_neg, Real.cosh_neg] at this
    linarith
  · rw [div_lt_one hc]
    exact Real.sinh_lt_cosh x

theorem cFmod_one_eq_fract (x : ℝ) (hx : 0 ≤ x) : cFmod x 1 = Int.fract x := by
  rw [cFmod, ctrunc, div_one, if_pos hx, Int.fract]
  ring

theorem lfoTriangle_bounds (ph : ℝ) (hph : 0 ≤ ph) :
    0 ≤ Tremolo.lfoTriangle ph ∧ Tremolo.lfoTriangle ph ≤ 1 := by
  have h0 : (0 : ℝ) ≤ Int.fract ph := Int.fract_nonneg ph
  have h1 : Int.fract ph < 1 := Int.fract_lt_one ph
  simp only [Tremolo.lfoTriangle, cFmod_one_eq_fract ph hph]
  by_cases hc : Int.fract ph < 0.5
  · rw [if_pos hc]
    constructor <;> [linarith; linarith]
  · rw [if_neg hc]
    push_neg at hc
    constructor <;> [linarith; linarith]

/-- C7 amended: for every phase `ph ≥ 0` (which covers the engine's
phase domain), the Sine, Triangle and SquareSoft generators return a
value in `[0, 1]`, and the Square generator returns exactly 0 or 1,
returning 1 precisely when `sin(2π·ph) ≥ 0`.  (For negative phases the
Triangle generator can leave `[0, 1]`, see the counterexample.) -/
theorem lfo_bounds (ph : ℝ) (hph : 0 ≤ ph) :
    (0 ≤ Tremolo.lfoEval LFOShape.Sine ph ∧ Tremolo.lfoEval LFOShape.Sine ph ≤ 1) ∧
    (0 ≤ Tremolo.lfoEval LFOShape.Triangle ph ∧ Tremolo.lfoEval LFOShape.Triangle ph ≤ 1) ∧
    (0 ≤ Tremolo.lfoEval LFOShape.SquareSoft ph ∧
      Tremolo.lfoEval LFOShape.SquareSoft ph ≤ 1) ∧
    (Tremolo.lfoEval LFOShape.Square ph = 0 ∨ Tremolo.lfoEval LFOShape.Square ph = 1) ∧
    (Tremolo.lfoEval LFOShape.Square ph = 1 ↔ 0 ≤ Real.sin (2 * Real.pi * ph)) := by
  have hs1 := Real.neg_one_le_sin (2 * Real.pi * ph)
  have hs2 := Real.sin_le_one (2 * Real.pi * ph)
  have hth := tanh_bounds (3 * Real.sin (2 * Real.pi * ph))
  refine ⟨⟨?_, ?_⟩, lfoTriangle_bounds ph hph, ⟨?_, ?_⟩, ?_, ?_⟩
  · simp only [Tremolo.lfoEval, Tremolo.lfoSine]; linarith
  · simp only [Tremolo.lfoEval, Tremolo.lfoSine]; linarith
  · simp only [Tremolo.lfoEval, Tremolo.lfoSquareSoft]; linarith [hth.1]
  · simp only [Tremolo.lfoEval, Tremolo.lfoSquareSoft]; linarith [hth.2]
  · simp only [Tremolo.lfoEval, Tremolo.lfoSquare]
    by_cases hc : 0 ≤ Real.sin (2 * Real.pi * ph)
    · right; rw [if_pos hc]
    · left; rw [if_neg hc]
  · simp only [Tremolo.lfoEval, Tremolo.lfoSquare]
    by_cases hc : 0 ≤ Real.sin (2 * Real.pi * ph)
    · simp [hc]
    · simp [hc]

/-- Witness for C7 (amended) at phase 0. -/
theorem lfo_bounds_witness :
    (0 : ℝ) ≤ 0 ∧
    ((0 ≤ Tremolo.lfoEval LFOShape.Sine 0 ∧ Tremolo.lfoEval LFOShape.Sine 0 ≤ 1) ∧
    (0 ≤ Tremolo.lfoEval LFOShape.Triangle 0 ∧ Tremolo.lfoEval LFOShape.Triangle 0 ≤ 1) ∧
    (0 ≤ Tremolo.lfoEval LFOShape.SquareSoft 0 ∧
      Tremolo.lfoEval LFOShape.SquareSoft 0 ≤ 1) ∧
    (Tremolo.lfoEval LFOShape.Square 0 = 0 ∨ Tremolo.lfoEval LFOShape.Square 0 = 1) ∧
    (Tremolo.lfoEval LFOShape.Square 0 = 1 ↔ 0 ≤ Real.sin (2 * Real.pi * 0))) :=
  ⟨le_refl 0, lfo_bounds 0 (le_refl 0)⟩

theorem onePoleSmoother_process_fst (s : OnePoleSmoother) (target : ℝ) :
    (s.process target).1 = s.a * (s.z + tiny) + (1 - s.a) * target := rfl

/-- C1 counterexample: with sample rate 1 and target rate 3 (both
positive, both set through the public setters), a single one-frame
`process` call pushes the phase to about 2: the single `-1` wrap cannot
bring an increment above 1 back into `[0, 1)`. -/
theorem tremolo_phase_escape_cex :
    ¬ (((({} : Tremolo).setSampleRate 1).setRateHz 3).process
        (some [0]) 1 1).1.phase < 1 := by
  have htiny : (0 : ℝ) < tiny := by norm_num [tiny]
  have hexp : (0 : ℝ) < Real.exp (-100) := Real.exp_pos _
  have h_sr : ((({} : Tremolo).setSampleRate 1).setRateHz 3).sr = 1 := by
    norm_num [Tremolo.setSampleRate, Tremolo.setRateHz]
  have h_rate : ((({} : Tremolo).setSampleRate 1).setRateHz 3).rateHz = 3 := by
    norm_num [Tremolo.setSampleRate, Tremolo.setRateHz]
  have h_a : ((({} : Tremolo).setSampleRate 1).setRateHz 3).rateSm.a = Real.exp (-100) := by
    norm_num [Tremolo.setSampleRate, Tremolo.setRateHz, OnePoleSmoother.setSampleRate,
      OnePoleSmoother.setTimeConstant, OnePoleSmoother.reset, OnePoleSmoother.updateCoeff]
  have h_z : ((({} : Tremolo).setSampleRate 1).setRateHz 3).rateSm.z = 5 := by
    norm_num [Tremolo.setSampleRate, Tremolo.setRateHz, OnePoleSmoother.setSampleRate,
      OnePoleSmoother.setTimeConstant, OnePoleSmoother.reset, OnePoleSmoother.updateCoeff]
  have h_phase : ((({} : Tremolo).setSampleRate 1).setRateHz 3).phase = 0 := by
    norm_num [Tremolo.setSampleRate, Tremolo.setRateHz]
  have hproc : (((({} : Tremolo).setSampleRate 1).setRateHz 3).process (some [0]) 1 1).1 =
      ((({} : Tremolo).setSampleRate 1).setRateHz 3).processStep.1 := by
    norm_num [Tremolo.process, Tremolo.processMono]
  rw [hproc, Tremolo.processStep_phase, onePoleSmoother_process_fst,
    h_a, h_z, h_rate, h_sr, h_phase]
  have hz3 : (3 : ℝ) ≤ Real.exp (-100) * (5 + tiny) + (1 - Real.exp (-100)) * 3 := by
    nlinarith [mul_pos hexp (show (0 : ℝ) < 2 + tiny by linarith)]
  have hmax : max 1e-9 ((Real.exp (-100) * (5 + tiny) + (1 - Real.exp (-100)) * 3) / 1) =
      Real.exp (-100) * (5 + tiny) + (1 - Real.exp (-100)) * 3 := by
    rw [div_one]
    exact max_eq_right (by linarith)
  rw [hmax, if_pos (by linarith)]
  linarith

theorem processStep_phase_invariant (t : Tremolo) (h : RateOK t)
    (h0 : 0 ≤ t.phase) (h1 : t.phase < 1) :
    RateOK t.processStep.1 ∧ 0 ≤ t.processStep.1.phase ∧ t.processStep.1.phase < 1 := by
  obtain ⟨hsr, ha0, ha1, hz, hb⟩ := h
  have htiny : (0 : ℝ) < tiny := by norm_num [tiny]
  have h1a : 0 < 1 - t.rateSm.a := by linarith
  have hcc : t.rateSm.a * tiny / (1 - t.rateSm.a) * (1 - t.rateSm.a) = t.rateSm.a * tiny :=
    div_mul_cancel₀ _ (ne_of_gt h1a)
  have hzb : t.rateSm.a * (t.rateSm.z + tiny) + (1 - t.rateSm.a) * t.rateHz ≤ rateBound t := by
    rw [rateBound] at hz ⊢
    nlinarith [mul_le_mul_of_nonneg_left (add_le_add_right hz tiny) ha0.le]
  have hrb : rateBound t.processStep.1 = rateBound t := by
    simp [rateBound]
  have hRok : RateOK t.processStep.1 := by
    simp only [RateOK, Tremolo.processStep_sr, Tremolo.processStep_rateSm_a,
      Tremolo.processStep_rateSm_z, hrb]
    exact ⟨hsr, ha0, ha1, hzb, hb⟩
  refine ⟨hRok, ?_, ?_⟩ <;> rw [Tremolo.processStep_phase, onePoleSmoother_process_fst]
  · have hle : (0 : ℝ) < max 1e-9 ((t.rateSm.a * (t.rateSm.z + tiny) +
        (1 - t.rateSm.a) * t.rateHz) / t.sr) :=
      lt_of_lt_of_le (by norm_num) (le_max_left _ _)
    split
    · rename_i hcase; linarith
    · linarith
  · have hincle : max 1e-9 ((t.rateSm.a * (t.rateSm.z + tiny) +
        (1 - t.rateSm.a) * t.rateHz) / t.sr) ≤ 1 := by
      refine max_le (by norm_num) ?_
      rw [div_le_one hsr]
      calc t.rateSm.a * (t.rateSm.z + tiny) + (1 - t.rateSm.a) * t.rateHz
          ≤ rateBound t := hzb
        _ ≤ t.sr := hb
    split
    · rename_i hcase; linarith
    · rename_i hcase; push_neg at hcase; linarith

theorem processMono_phase_invariant (n : ℕ) :
    ∀ (t : Tremolo) (buf : List ℝ), RateOK t → 0 ≤ t.phase → t.phase < 1 →
    RateOK (Tremolo.processMono t n buf).1 ∧ 0 ≤ (Tremolo.processMono t n buf).1.phase ∧
      (Tremolo.processMono t n buf).1.phase < 1 := by
  induction n with
  | zero => intro t buf hR h0 h1; simpa [Tremolo.processMono] using ⟨hR, h0, h1⟩
  | succ n ih =>
      intro t buf hR h0 h1
      obtain ⟨hR', h0', h1'⟩ := processStep_phase_invariant t hR h0 h1
      cases buf with
      | nil => simpa [Tremolo.processMono] using ih t.processStep.1 [] hR' h0' h1'
      | cons x rest =>
          simpa [Tremolo.processMono] using ih t.processStep.1 rest hR' h0' h1'

theorem processStereo_phase_invariant (n : ℕ) :
    ∀ (t : Tremolo) (buf : List ℝ), RateOK t → 0 ≤ t.phase → t.phase < 1 →
    RateOK (Tremolo.processStereo t n buf).1 ∧
      0 ≤ (Tremolo.processStereo t n buf).1.phase ∧
      (Tremolo.processStereo t n buf).1.phase < 1 := by
  induction n with
  | zero => intro t buf hR h0 h1; simpa [Tremolo.processStereo] using ⟨hR, h0, h1⟩
  | succ n ih =>
      intro t buf hR h0 h1
      obtain ⟨hR', h0', h1'⟩ := processStep_phase_invariant t hR h0 h1
      match buf with
      | [] => simpa [Tremolo.processStereo] using ih t.processStep.1 [] hR' h0' h1'
      | [x] => simpa [Tremolo.processStereo] using ih t.processStep.1 [] hR' h0' h1'
      | xL :: xR :: rest =>
          simpa [Tremolo.processStereo] using ih t.processStep.1 rest hR' h0' h1'

/-- C1 amended: starting from any state whose phase lies in `[0, 1)` and
whose rate configuration satisfies `RateOK` (per-sample increment never
above 1 — in particular the target rate, plus the smoother's
denormal-bias bound, must not exceed the sample rate), every `process`
call leaves the phase in `[0, 1)` and preserves `RateOK`, so the
invariant holds after arbitrarily many calls.  Without the rate bound
the claim is false (see the counterexample). -/
theorem tremolo_phase_in_unit (t : Tremolo) (hR : RateOK t) (h0 : 0 ≤ t.phase)
    (h1 : t.phase < 1) (interleaved : Option (List ℝ)) (frames : ℕ) (channels : ℤ) :
    RateOK (t.process interleaved frames channels).1 ∧
    0 ≤ (t.process interleaved frames channels).1.phase ∧
    (t.process interleaved frames channels).1.phase < 1 := by
  match interleaved with
  | none => exact ⟨hR, h0, h1⟩
  | some buf =>
      by_cases hch : channels < 1
      · simpa [Tremolo.process, hch] using ⟨hR, h0, h1⟩
      · by_cases h1c : channels = 1
        · simpa [Tremolo.process, hch, h1c] using
            processMono_phase_invariant frames t buf hR h0 h1
        · simpa [Tremolo.process, hch, h1c] using
            processStereo_phase_invariant frames t buf hR h0 h1

/-- Witness for C1 (amended) at the explicit state `rateOKExample`. -/
theorem tremolo_phase_in_unit_witness :
    (RateOK rateOKExample ∧ 0 ≤ rateOKExample.phase ∧ rateOKExample.phase < 1) ∧
    (RateOK (rateOKExample.process (some [0]) 1 1).1 ∧
      0 ≤ (rateOKExample.process (some [0]) 1 1).1.phase ∧
      (rateOKExample.process (some [0]) 1 1).1.phase < 1) :=
  ⟨⟨by norm_num [RateOK, rateBound, rateOKExample, tiny],
      by norm_num [rateOKExample], by norm_num [rateOKExample]⟩,
   tremolo_phase_in_unit rateOKExample
     (by norm_num [RateOK, rateBound, rateOKExample, tiny])
     (by norm_num [rateOKExample]) (by norm_num [rateOKExample]) (some [0]) 1 1⟩

theorem processStep_gain_left (t : Tremolo) :
    t.processStep.2.1 = 1 - (t.depthSm.process t.depth).1 * Tremolo.lfoEval t.shape t.phase :=
  rfl

theorem processStep_gain_right (t : Tremolo) :
    t.processStep.2.2 = 1 - (t.depthSm.process t.depth).1 *
      Tremolo.lfoEval t.shape (cFmod (t.phase + t.stereoPhaseR) 1) :=
  rfl

theorem processStep_phase_nonneg (t : Tremolo) (h : 0 ≤ t.phase) :
    0 ≤ t.processStep.1.phase := by
  rw [Tremolo.processStep_phase]
  have hle : (0 : ℝ) < max 1e-9 ((t.rateSm.process t.rateHz).1 / t.sr) :=
    lt_of_lt_of_le (by norm_num) (le_max_left _ _)
  split
  · rename_i hc; linarith
  · linarith

/-- All four waveform generators are 1-periodic on non-negative phases:
taking the fractional part of the phase does not change the output. -/
theorem lfoEval_fract (sh : LFOShape) (ph : ℝ) (h : 0 ≤ ph) :
    Tremolo.lfoEval sh (Int.fract ph) = Tremolo.lfoEval sh ph := by
  have hsin : Real.sin (2 * Real.pi * Int.fract ph) = Real.sin (2 * Real.pi * ph) := by
    rw [Int.fract]
    have harg : 2 * Real.pi * (ph - ⌊ph⌋) =
        2 * Real.pi * ph - (⌊ph⌋ : ℤ) * (2 * Real.pi) := by
      ring
    rw [harg, Real.sin_sub_int_mul_two_pi]
  cases sh with
  | Sine => simp [Tremolo.lfoEval, Tremolo.lfoSine, hsin]
  | Square => simp [Tremolo.lfoEval, Tremolo.lfoSquare, hsin]
  | SquareSoft => simp [Tremolo.lfoEval, Tremolo.lfoSquareSoft, hsin]
  | Triangle =>
      simp only [Tremolo.lfoEval, Tremolo.lfoTriangle]
      rw [cFmod_one_eq_fract _ (Int.fract_nonneg ph), cFmod_one_eq_fract _ h, Int.fract_fract]

/-- With stereo phase offset 0 and a non-negative phase, the left and
right gains of one processing step coincide. -/
theorem processStep_gains_eq (t : Tremolo) (hsp : t.stereoPhaseR = 0) (hph : 0 ≤ t.phase) :
    t.processStep.2.1 = t.processStep.2.2 := by
  rw [processStep_gain_left, processStep_gain_right, hsp, add_zero,
    cFmod_one_eq_fract _ hph, lfoEval_fract _ _ hph]

theorem processStereo_dup2 (n : ℕ) :
    ∀ (t : Tremolo) (l : List ℝ), t.stereoPhaseR = 0 → 0 ≤ t.phase →
    ∃ l2 : List ℝ, (Tremolo.processStereo t n (dup2 l)).2 = dup2 l2 := by
  induction n with
  | zero => intro t l _ _; exact ⟨l, rfl⟩
  | succ n ih =>
      intro t l hsp hph
      cases l with
      | nil =>
          obtain ⟨l2, h2⟩ := ih t.processStep.1 []
            (by simpa using hsp) (processStep_phase_nonneg t hph)
          exact ⟨[], by simp [dup2, Tremolo.processStereo]⟩
      | cons x rest =>
          obtain ⟨l2, h2⟩ := ih t.processStep.1 rest
            (by simpa using hsp) (processStep_phase_nonneg t hph)
          refine ⟨Tremolo.chanOut t.wet t.processStep.2.1 x :: l2, ?_⟩
          simp only [dup2, Tremolo.processStereo]
          rw [← processStep_gains_eq t hsp hph, h2]

/-- C8: with the stereo phase offset at 0 and a non-negative phase, a
stereo buffer whose left and right samples agree in every frame is
mapped to an output whose left and right channels are numerically
identical (both channels see the same LFO phase, hence the same gain,
each sample). -/
theorem process_stereo_identical_channels (t : Tremolo) (hsp : t.stereoPhaseR = 0)
    (hph : 0 ≤ t.phase) (l : List ℝ) (frames : ℕ) :
    ∃ outL : List ℝ, (t.process (some (dup2 l)) frames 2).2 = some (dup2 outL) := by
  obtain ⟨l2, h⟩ := processStereo_dup2 frames t l hsp hph
  refine ⟨l2, ?_⟩
  have h1 : ¬ (2 : ℤ) < 1 := by norm_num
  have h2 : (2 : ℤ) ≠ 1 := by norm_num
  simp [Tremolo.process, h1, h2, h]

/-- Witness for C8: the engine right after `setStereoPhaseDeg 0`, on a
one-frame equal-channel buffer. -/
theorem process_stereo_identical_channels_witness :
    (({} : Tremolo).setStereoPhaseDeg 0).stereoPhaseR = 0 ∧
    0 ≤ (({} : Tremolo).setStereoPhaseDeg 0).phase ∧
    ∃ outL : List ℝ,
      ((({} : Tremolo).setStereoPhaseDeg 0).process (some (dup2 [1 / 2])) 1 2).2 =
        some (dup2 outL) := by
  have hsp : (({} : Tremolo).setStereoPhaseDeg 0).stereoPhaseR = 0 := by
    simp [Tremolo.setStereoPhaseDeg]
  have hph : (0 : ℝ) ≤ (({} : Tremolo).setStereoPhaseDeg 0).phase := by
    simp [Tremolo.setStereoPhaseDeg]
  exact ⟨hsp, hph, process_stereo_identical_channels _ hsp hph [1 / 2] 1⟩

theorem processStereo_frame_locality (n : ℕ) :
    ∀ (t : Tremolo) (buf : List ℝ), 2 * n ≤ buf.length →
    ∃ pre : List ℝ, pre.length = 2 * n ∧
      (Tremolo.processStereo t n buf).2 = pre ++ buf.drop (2 * n) ∧
      Tremolo.processStereo t n (buf.take (2 * n)) =
        ((Tremolo.processStereo t n buf).1, pre) := by
  induction n with
  | zero => intro t buf _; exact ⟨[], rfl, rfl, rfl⟩
  | succ n ih =>
      intro t buf hlen
      match buf with
      | [] => simp at hlen
      | [x] => simp at hlen; omega
      | xL :: xR :: rest =>
          have hrest : 2 * n ≤ rest.length := by
            simp only [List.length_cons] at hlen
            omega
          obtain ⟨pre, hl, he, ht⟩ := ih t.processStep.1 rest hrest
          refine ⟨Tremolo.chanOut t.wet t.processStep.2.1 xL ::
            Tremolo.chanOut t.wet t.processStep.2.2 xR :: pre, ?_, ?_, ?_⟩
          · simp [hl]
            omega
          · have h2 : 2 * (n + 1) = 2 * n + 1 + 1 := by ring
            simp only [h2, List.drop_succ_cons, Tremolo.processStereo, List.cons_append]
            rw [he]
          · have h2 : 2 * (n + 1) = 2 * n + 1 + 1 := by ring
            simp only [h2, List.take_succ_cons, Tremolo.processStereo]
            rw [ht]

/-- C10 amended: for channel count ≥ 2 the engine treats the buffer as
two-channel interleaved regardless of the actual channel count, reading
and writing only positions `frame*2` and `frame*2+1` for frames
`0..frames-1`: every element at index ≥ `2*frames` is left unread and
unmodified (the output and final state depend only on the first
`2*frames` elements, and the tail is returned untouched).  For more than
two channels the untouched region is the tail of the buffer, not the
interleaved third-channel samples: a third-channel sample landing below
index `2*frames` is read and overwritten (see the counterexample). -/
theorem process_two_channel_locality (t : Tremolo) (frames : ℕ) (buf : List ℝ)
    (channels : ℤ) (hch : 2 ≤ channels) (hlen : 2 * frames ≤ buf.length) :
    ∃ pre : List ℝ, pre.length = 2 * frames ∧
      (t.process (some buf) frames channels).2 = some (pre ++ buf.drop (2 * frames)) ∧
      t.process (some (buf.take (2 * frames))) frames channels =
        ((t.process (some buf) frames channels).1, some pre) := by
  have h1 : ¬ channels < 1 := by omega
  have h2 : channels ≠ 1 := by omega
  obtain ⟨pre, hl, he, ht⟩ := processStereo_frame_locality frames t buf hlen
  refine ⟨pre, hl, ?_, ?_⟩
  · simp [Tremolo.process, h1, h2, he]
  · simp [Tremolo.process, h1, h2, ht]

/-- Witness for C10 (amended): default state, three channels, two
frames, six-element buffer. -/
theorem process_two_channel_locality_witness :
    (2 : ℤ) ≤ 3 ∧ 2 * 2 ≤ ([0, 0, 2, 0, 0, 0] : List ℝ).length ∧
    ∃ pre : List ℝ, pre.length = 2 * 2 ∧
      (({} : Tremolo).process (some [0, 0, 2, 0, 0, 0]) 2 3).2 =
        some (pre ++ ([0, 0, 2, 0, 0, 0] : List ℝ).drop (2 * 2)) ∧
      ({} : Tremolo).process (some (([0, 0, 2, 0, 0, 0] : List ℝ).take (2 * 2))) 2 3 =
        ((({} : Tremolo).process (some [0, 0, 2, 0, 0, 0]) 2 3).1, some pre) :=
  ⟨by norm_num, by norm_num,
   process_two_channel_locality {} 2 [0, 0, 2, 0, 0, 0] 3 (by norm_num) (by norm_num)⟩

/-- C10 counterexample: with three channels and two frames, the buffer
element at index 2 — the first frame's third-channel sample in
three-channel interleaved layout — is overwritten: input 2 becomes
`clamp11(2 + tiny) = 1` (wet 0 isolates the write from the gain
computation). -/
theorem process_third_channel_modified_cex :
    ((({} : Tremolo).setWet 0).process (some [0, 0, 2, 0, 0, 0]) 2 3).2 =
      some [tiny, tiny, 1, tiny, 0, 0] ∧ (1 : ℝ) ≠ 2 := by
  have hw : (({} : Tremolo).setWet 0).wet = 0 := by
    simp [Tremolo.setWet, clamp01]
  have h := processStereo_wet_zero 2 (({} : Tremolo).setWet 0) [0, 0, 2, 0, 0, 0] hw
    (by norm_num)
  have h1 : ¬ (3 : ℤ) < 1 := by norm_num
  have h2 : (3 : ℤ) ≠ 1 := by norm_num
  refine ⟨?_, by norm_num⟩
  simp only [Tremolo.process, h1, h2, if_false, if_neg h2, if_neg h1]
  rw [h]
  have ht0 : clamp11 tiny = tiny := by
    rw [clamp11]
    rw [min_eq_right (by norm_num [tiny]), max_eq_right (by norm_num [tiny])]
  have ht2 : clamp11 (2 + tiny) = 1 := by
    rw [clamp11]
    rw [min_eq_left (by norm_num [tiny]), max_eq_right (by norm_num)]
  simp [ht0, ht2]
